import Mathlib

/-!
Shallow embedding of the go-price repository (package `price`).

Modelling conventions:
* A Go `big.Float` amount is modelled as an exact rational number (`ℚ`).
  `big.Float` is arbitrary precision; the idealisation treats every
  arithmetic step (`Add`, `Sub`, `Mul`, `Quo`, `Parse`) as exact.
* The explicit conversions to machine floats in the source are modelled at
  the value level on `ℚ`: `math.Modf` splits off the integer part truncated
  toward zero (`goTrunc`), `math.Round` rounds half away from zero
  (`goRound`), and a Go `int64(x)` conversion of an out-of-range float
  saturates to `MinInt64` as it does on amd64/arm64 (`goInt64`).
* Go functions returning `(T, error)` are modelled as `T × Option String`
  carrying the exact error message, or as `Except String T` when the
  source returns `nil, err`.
* `float64` literals of the source (`1e-9`, test inputs such as `12.34567`)
  are modelled by the exact decimal values they denote.
-/

/-- Integer part of a rational, truncated toward zero: the value of the
integer component returned by Go's `math.Modf` (on the negative side the
ceiling, written `-⌊-q⌋`). -/
def goTrunc (q : ℚ) : ℤ :=
  if q < 0 then -⌊-q⌋ else ⌊q⌋

/-- Go's `math.Round`: round to nearest integer, halves away from zero. -/
def goRound (q : ℚ) : ℤ :=
  if q < 0 then -⌊-q + 1/2⌋ else ⌊q + 1/2⌋

/-- Go conversion `int64(x)` applied to a float value: truncation toward
zero while in range; an out-of-range value saturates to `MinInt64`
(`-2^63`), the behaviour of amd64 `cvttsd2si` and of arm64 for negative
overflow. -/
def goInt64 (q : ℚ) : ℤ :=
  if q ≥ (2:ℚ)^63 ∨ q < -((2:ℚ)^63) then -(2^63) else goTrunc q

/-- Ten to an integer power, as a rational. -/
def qpow10 (e : ℤ) : ℚ :=
  if 0 ≤ e then ((10:ℚ)^e.toNat) else ((10:ℚ)^(-e).toNat)⁻¹

/-- Go's `strings.ToLower` on one character, for the ASCII range used by
the currency table (`unicode.ToLower` maps A-Z to a-z). -/
def charLower (c : Char) : Char :=
  if 65 ≤ c.toNat ∧ c.toNat ≤ 90 then Char.ofNat (c.toNat + 32) else c

/-- Go's `strings.ToLower`, mapping `charLower` over the characters. -/
def goToLower (s : String) : String :=
  String.mk (s.data.map charLower)

/-- Round a rational to the nearest integer, ties to even: the rounding
used by `big.Float.Text` when shortening to a decimal digit count. -/
def roundHalfEven (q : ℚ) : ℤ :=
  let f := ⌊q⌋
  let r := q - f
  if r < 1/2 then f
  else if r > 1/2 then f + 1
  else if 2 ∣ f then f else f + 1

/-- Price is a Type that represents an Amount - it is immutable.
The `big.Float` amount is modelled as an exact rational. -/
structure Price where
  amount : ℚ
  currency : String
deriving DecidableEq

/-- RoundingModeFloor use if you want to cut (round down). -/
def RoundingModeFloor : String := "floor"

/-- RoundingModeCeil use if you want to round up always. -/
def RoundingModeCeil : String := "ceil"

/-- RoundingModeHalfUp round up if the discarded fraction is >= 0.5. -/
def RoundingModeHalfUp : String := "halfup"

/-- RoundingModeHalfDown round up if the discarded fraction is > 0.5. -/
def RoundingModeHalfDown : String := "halfdown"

/-- NewFromFloat - factory method.  The `float64` argument is modelled by
the exact decimal value it denotes. -/
def NewFromFloat (amount : ℚ) (currency : String) : Price :=
  ⟨amount, currency⟩

/-- NewZero - Zero price. -/
def NewZero (currency : String) : Price :=
  ⟨0, currency⟩

/-- NewFromInt use to set money by smallest payable unit; the quotient
`amount / precision` is taken exactly (`big.Float.Quo`), and a zero
precision yields the zero amount. -/
def NewFromInt (amount : ℤ) (precision : ℤ) (currency : String) : Price :=
  if precision = 0 then ⟨0, currency⟩
  else ⟨(amount : ℚ) / (precision : ℚ), currency⟩

/-- Currency returns currency. -/
def Price.Currency (p : Price) : String := p.currency

/-- Amount returns the exact amount. -/
def Price.Amount (p : Price) : ℚ := p.amount

/-- Clone returns a copy of the price. -/
def Price.Clone (p : Price) : Price := ⟨p.amount, p.currency⟩

/-- Equal compares the prices exactly (currency, then `Cmp == 0`). -/
def Price.Equal (p cmp : Price) : Bool :=
  if p.currency ≠ cmp.currency then false
  else decide (p.amount = cmp.amount)

/-- LikelyEqual compares the prices with some tolerance: the absolute
difference must be strictly below `0.000000001`. -/
def Price.LikelyEqual (p cmp : Price) : Bool :=
  if p.currency ≠ cmp.currency then false
  else decide (|p.amount - cmp.amount| < 1/1000000000)

/-- IsLessThenValue compares the price with a given amount value. -/
def Price.IsLessThenValue (p : Price) (amount : ℚ) : Bool :=
  decide (p.amount < amount)

/-- IsNegative returns true if the price represents a negative value. -/
def Price.IsNegative (p : Price) : Bool :=
  p.IsLessThenValue 0

/-- IsZero returns true if the price represents zero value; zero-ness uses
the tolerance comparator `LikelyEqual`, not exact equality. -/
def Price.IsZero (p : Price) : Bool :=
  p.LikelyEqual (NewZero p.Currency) || p.LikelyEqual (NewFromFloat 0 p.Currency)

/-- currencyGuard is a common guard that protects price calculations of
prices with different currency.  Robust: if the original is zero and the
currencies are different we take the given currency. -/
def Price.currencyGuard (p check : Price) : Price × Option String :=
  if p.currency = check.currency then (⟨0, check.currency⟩, none)
  else if p.IsZero then (⟨0, check.currency⟩, none)
  else if check.IsZero then (⟨0, p.currency⟩, none)
  else (NewZero p.currency, some "cannot calculate prices in different currencies")

/-- Add the given price to the current price and returns a new price. -/
def Price.Add (p add : Price) : Price × Option String :=
  match p.currencyGuard add with
  | (newPrice, some err) => (newPrice, some err)
  | (newPrice, none) => ({ newPrice with amount := p.amount + add.amount }, none)

/-- Sub the given price from the current price and returns a new price. -/
def Price.Sub (p sub : Price) : Price × Option String :=
  match p.currencyGuard sub with
  | (newPrice, some err) => (newPrice, some err)
  | (newPrice, none) => ({ newPrice with amount := p.amount - sub.amount }, none)

/-- Inverse returns the price multiplied with -1. -/
def Price.Inverse (p : Price) : Price :=
  { p with amount := p.amount * (-1) }

/-- precisionF returns the precision as a rational (big.Float from int). -/
def Price.precisionF (_p : Price) (precision : ℤ) : ℚ :=
  (precision : ℚ)

/-- negativeSign is the local `negative` of `GetPayableByRoundingMode`:
`-1` for a negative price, else `1`. -/
def Price.negativeSign (p : Price) : ℤ :=
  if p.IsNegative then -1 else 1

/-- amountTruncatedFloat: the amount scaled by the precision (the
`Float64` materialisation is modelled as exact). -/
def Price.amountTruncatedFloat (p : Price) (precision : ℤ) : ℚ :=
  p.amount * p.precisionF precision

/-- integerPart of `math.Modf` on the scaled amount. -/
def Price.integerPart (p : Price) (precision : ℤ) : ℚ :=
  ((goTrunc (p.amountTruncatedFloat precision) : ℤ) : ℚ)

/-- fractionalPart of `math.Modf` on the scaled amount (sign of the
scaled amount, magnitude below one). -/
def Price.fractionalPart (p : Price) (precision : ℤ) : ℚ :=
  p.amountTruncatedFloat precision - p.integerPart precision

/-- valueAfterPrecision: the decision digit
`(math.Round(fractionalPart*1000) / 100) * negative`. -/
def Price.valueAfterPrecision (p : Price) (precision : ℤ) : ℚ :=
  ((goRound (p.fractionalPart precision * 1000) : ℤ) : ℚ) / 100 * ((p.negativeSign : ℤ) : ℚ)

/-- roundingSwitch is the `switch mode` statement of
`GetPayableByRoundingMode`: it possibly increments the truncated integer
by `negative`; an unknown mode changes nothing. -/
def roundingSwitch (mode : String) (negative : ℤ) (valueAfterPrecision : ℚ)
    (amountTruncatedInt : ℤ) : ℤ :=
  if mode = RoundingModeCeil then
    if negative = 1 ∧ valueAfterPrecision > 0 then amountTruncatedInt + negative
    else amountTruncatedInt
  else if mode = RoundingModeHalfUp then
    if valueAfterPrecision ≥ 5 then amountTruncatedInt + negative
    else amountTruncatedInt
  else if mode = RoundingModeHalfDown then
    if valueAfterPrecision > 5 then amountTruncatedInt + negative
    else amountTruncatedInt
  else if mode = RoundingModeFloor then
    if negative = -1 ∧ valueAfterPrecision > 0 then amountTruncatedInt + negative
    else amountTruncatedInt
  else amountTruncatedInt

/-- GetPayableByRoundingMode returns the price rounded; you can pass the
used rounding mode and precision.  If the scaled amount reaches
`float64(math.MaxInt64) = 2^63` the unrounded price is returned. -/
def Price.GetPayableByRoundingMode (p : Price) (mode : String) (precision : ℤ) : Price :=
  if p.amountTruncatedFloat precision ≥ (2:ℚ)^63 then ⟨p.amount, p.currency⟩
  else
    ⟨((roundingSwitch mode p.negativeSign (p.valueAfterPrecision precision)
        (goInt64 (p.integerPart precision)) : ℤ) : ℚ) / p.precisionF precision,
      p.currency⟩

/-- payableRoundingPrecision: currency table for `GetPayable` - the
currencies "miles" and "points" (case-insensitive) use `(Floor, 1)`,
every other currency uses `(HalfUp, 100)`. -/
def Price.payableRoundingPrecision (p : Price) : String × ℤ :=
  if goToLower p.currency = "miles" ∨ goToLower p.currency = "points" then
    (RoundingModeFloor, 1)
  else (RoundingModeHalfUp, 100)

/-- GetPayable rounds the price with the precision required by the
currency into a price that can actually be paid. -/
def Price.GetPayable (p : Price) : Price :=
  p.GetPayableByRoundingMode (p.payableRoundingPrecision).1 (p.payableRoundingPrecision).2

/-- SplitInPayables returns `count` payable prices (each rounded) whose
sum matches the payable price, distributing the remainder of the integer
division one smallest unit at a time to the first shares. -/
def Price.SplitInPayables (p : Price) (count : ℤ) : Except String (List Price) :=
  if count ≤ 0 then Except.error "split must be higher than zero"
  else
    let precision := (p.payableRoundingPrecision).2
    let amount := if p.IsNegative then p.GetPayable.Inverse.Amount else p.GetPayable.Amount
    let amountToMatchFloat := amount * p.precisionF precision
    let amountToMatchInt := goInt64 amountToMatchFloat
    let splittedAmountModulo := Int.tmod amountToMatchInt count
    let splittedAmount := Int.tdiv amountToMatchInt count
    let splittedAmounts := (List.range count.toNat).map fun (i : ℕ) =>
      if (i : ℤ) < splittedAmountModulo then splittedAmount + 1 else splittedAmount
    let prices := splittedAmounts.map fun sa =>
      NewFromInt (if p.IsNegative then sa * (-1) else sa) precision p.Currency
    Except.ok prices

/-- Wire shape of a Price: a two-field object with the amount as a decimal
string and the currency.  The amount string is modelled by the exact
decimal value it denotes. -/
structure priceJSON where
  Amount : ℚ
  Currency : String
deriving DecidableEq

/-- stringG10 is the value denoted by `big.Float.String()`, which formats
with `Text('g', 10)`: the amount rounded to at most 10 significant decimal
digits (ties to even). -/
def stringG10 (q : ℚ) : ℚ :=
  if q = 0 then 0
  else
    (if q < 0 then (-1 : ℚ) else 1) *
      (((roundHalfEven (|q| / qpow10 (Int.log 10 |q| - 9)) : ℤ) : ℚ) *
        qpow10 (Int.log 10 |q| - 9))

/-- MarshalText encodes the price as the canonical wire object; the
amount field carries `p.amount.String()`, i.e. at most 10 significant
decimal digits of the amount. -/
def Price.MarshalText (p : Price) : priceJSON :=
  ⟨stringG10 p.amount, p.currency⟩

/-- UnmarshalText decodes the wire object, parsing the amount string as an
arbitrary-precision decimal (`big.Float.Parse`, exact in this model). -/
def Price.UnmarshalText (pj : priceJSON) : Price :=
  ⟨pj.Amount, pj.Currency⟩

/-- Loop body of `SumAll`: add the next price into the accumulator unless
an error already occurred (the Go loop returns at the first error, which
is observably the same as carrying the error through). -/
def sumStep (acc : Price × Option String) (price : Price) : Price × Option String :=
  match acc with
  | (result, none) => Price.Add result price
  | (result, some err) => (result, some err)

/-- SumAll returns a new price with the sum of all given prices; an empty
input is an error, and the fold stops at the first currency mismatch. -/
def SumAll (prices : List Price) : Price × Option String :=
  match prices with
  | [] => (NewZero "", some "no price given")
  | first :: rest => rest.foldl sumStep (first.Clone, none)

/-- Charge is an Amount of a certain Type.  The Go fields `Price`, `Value`
and `Type` are written `price`, `value` and `Type'` (`Price` would shadow
the type and `Type` is reserved in Lean). -/
structure Charge where
  price : Price
  value : Price
  Type' : String
  Reference : String
deriving DecidableEq

/-- ChargeQualifier distinguishes charges by type and reference. -/
structure ChargeQualifier where
  Type' : String
  Reference : String
deriving DecidableEq

/-- Zero value of Charge (Go `Charge{}`). -/
def emptyCharge : Charge :=
  ⟨⟨0, ""⟩, ⟨0, ""⟩, "", ""⟩

/-- Add the given Charge to the current Charge and returns a new Charge;
mismatched types or a currency mismatch yield `Charge{}` and an error. -/
def Charge.Add (p add : Charge) : Charge × Option String :=
  if p.Type' ≠ add.Type' then (emptyCharge, some "charge type mismatch")
  else
    match Price.Add p.price add.price with
    | (_, some err) => (emptyCharge, some err)
    | (newPrice, none) =>
      match Price.Add p.value add.value with
      | (_, some err) => (emptyCharge, some err)
      | (newValue, none) => ({ p with price := newPrice, value := newValue }, none)

/-- GetPayable rounds the charge (both value and price). -/
def Charge.GetPayable (p : Charge) : Charge :=
  { p with value := Price.GetPayable p.value, price := Price.GetPayable p.price }

/-- A Go map value: association list from qualifier to charge (the claims
only observe maps through lookups, so list order is unobservable). -/
abbrev ChargeMap := List (ChargeQualifier × Charge)

/-- Lookup in a map value. -/
def mapLookup (m : ChargeMap) (q : ChargeQualifier) : Option Charge :=
  (List.find? (fun kv => decide (kv.1 = q)) m).map (fun kv => kv.2)

/-- Store/update a key in a map value. -/
def mapStore (m : ChargeMap) (q : ChargeQualifier) (c : Charge) : ChargeMap :=
  List.filter (fun kv => !(decide (kv.1 = q))) m ++ [(q, c)]

/-- The heap of live Go map objects: Go maps are reference values, so two
`Charges` values can alias the same map object.  A `Store` indexes the map
objects by allocation order. -/
abbrev Store := List ChargeMap

/-- Read a map object from the store. -/
def storeRead (s : Store) (r : Nat) : ChargeMap :=
  List.getD s r []

/-- Write a map object in the store. -/
def storeWrite (s : Store) (r : Nat) (m : ChargeMap) : Store :=
  List.set s r m

/-- Charges represents the charges the product needs to be paid with.  The
Go struct holds a map header: `none` is a nil map, `some r` a reference to
the map object at index `r` of the store. -/
structure Charges where
  chargesByQualifier : Option Nat
deriving DecidableEq

/-- The map update performed by `Charges.AddCharge` on the referenced map
object: an existing entry with the same qualifier is replaced by the
rounded sum `existing.Add(toadd).GetPayable()`, otherwise the charge is
inserted. -/
def Charges.addChargeRef (store : Store) (r : Nat) (toadd : Charge) : Store :=
  let qualifier : ChargeQualifier := ⟨toadd.Type', toadd.Reference⟩
  let m := storeRead store r
  match mapLookup m qualifier with
  | some existingCharge =>
      storeWrite store r (mapStore m qualifier (Charge.GetPayable (Charge.Add existingCharge toadd).1))
  | none => storeWrite store r (mapStore m qualifier toadd)

/-- AddCharge returns new Charges with the given Charge added.  A nil map
is replaced by a freshly allocated one; otherwise the charge is written
into the SAME map object the receiver references. -/
def Charges.AddCharge (store : Store) (c : Charges) (toadd : Charge) : Store × Charges :=
  match c.chargesByQualifier with
  | none => (Charges.addChargeRef (store ++ [[]]) store.length toadd, ⟨some store.length⟩)
  | some r => (Charges.addChargeRef store r toadd, ⟨some r⟩)

/-- HasChargeQualifier returns true if the charges include a charge with
the given qualifier. -/
def Charges.HasChargeQualifier (store : Store) (c : Charges) (qualifier : ChargeQualifier) : Bool :=
  match c.chargesByQualifier with
  | none => false
  | some r => (mapLookup (storeRead store r) qualifier).isSome

/-- GetByChargeQualifier returns a charge of the given qualifier; if it
was not found a zero charge is returned and the second value is false. -/
def Charges.GetByChargeQualifier (store : Store) (c : Charges) (qualifier : ChargeQualifier) :
    Charge × Bool :=
  if ¬ Charges.HasChargeQualifier store c qualifier then (emptyCharge, false)
  else
    match c.chargesByQualifier with
    | none => (emptyCharge, false)
    | some r =>
      match mapLookup (storeRead store r) qualifier with
      | some charge => (charge, true)
      | none => (emptyCharge, false)

/-- Adding prices of one currency always succeeds and sums the amounts. -/
theorem add_same_currency (p q : Price) (h : p.currency = q.currency) :
    p.Add q = (⟨p.amount + q.amount, q.currency⟩, none) := by
  simp [Price.Add, Price.currencyGuard, h]

/-- Subtracting prices of one currency always succeeds. -/
theorem sub_same_currency (p q : Price) (h : p.currency = q.currency) :
    p.Sub q = (⟨p.amount - q.amount, q.currency⟩, none) := by
  simp [Price.Sub, Price.currencyGuard, h]

/-- IsZero holds exactly when the amount is within the 1e-9 tolerance. -/
theorem isZero_iff (p : Price) : p.IsZero = true ↔ |p.amount| < 1/1000000000 := by
  simp [Price.IsZero, Price.LikelyEqual, NewZero, NewFromFloat, Price.Currency]

/-- A price that is zero under the tolerance adds into any price,
adopting the other currency. -/
theorem add_of_isZero (a b : Price) (h : a.IsZero = true) :
    a.Add b = (⟨a.amount + b.amount, b.currency⟩, none) := by
  by_cases hc : a.currency = b.currency
  · simp [Price.Add, Price.currencyGuard, hc]
  · simp [Price.Add, Price.currencyGuard, hc, h]

/-- C3 counterexample: the claim's HalfUp row uses precision 10, but at
precision 10 the code leaves 7.5 unchanged (one decimal digit is kept),
it does not produce 8. -/
theorem C3_rounding_table_counterexample :
    ((NewFromFloat (15/2) "EUR").GetPayableByRoundingMode RoundingModeHalfUp 10).amount = 15/2
      ∧ (15/2 : ℚ) ≠ 8 := by
  constructor
  · norm_num [Price.GetPayableByRoundingMode, Price.amountTruncatedFloat, Price.precisionF,
      Price.negativeSign, Price.IsNegative, Price.IsLessThenValue, Price.valueAfterPrecision,
      Price.fractionalPart, Price.integerPart, goTrunc, goRound, goInt64, roundingSwitch,
      RoundingModeCeil, RoundingModeHalfUp, RoundingModeHalfDown, RoundingModeFloor, NewFromFloat,
      String.reduceEq, reduceIte]
  · norm_num

/-- C3 amended: the boundary table holds with the half-up/half-down rows
taken at precision 1 (integral rounding); the floor/ceiling rows hold at
precision 100 as stated: HalfUp 7.5 gives 8, 7.4 gives 7, -7.5 gives -8,
-7.45 gives -7; HalfDown 7.5 gives 7 and -7.5 gives -7; Floor 12.34567
gives 12.34 and -12.34567 gives -12.35; Ceiling 12.34567 gives 12.35 and
-12.34567 gives -12.34. -/
theorem C3_rounding_table_amended :
    ((NewFromFloat (15/2) "EUR").GetPayableByRoundingMode RoundingModeHalfUp 1).amount = 8
    ∧ ((NewFromFloat (74/10) "EUR").GetPayableByRoundingMode RoundingModeHalfUp 1).amount = 7
    ∧ ((NewFromFloat (-(15/2)) "EUR").GetPayableByRoundingMode RoundingModeHalfUp 1).amount = -8
    ∧ ((NewFromFloat (-(745/100)) "EUR").GetPayableByRoundingMode RoundingModeHalfUp 1).amount = -7
    ∧ ((NewFromFloat (15/2) "EUR").GetPayableByRoundingMode RoundingModeHalfDown 1).amount = 7
    ∧ ((NewFromFloat (-(15/2)) "EUR").GetPayableByRoundingMode RoundingModeHalfDown 1).amount = -7
    ∧ ((NewFromFloat (1234567/100000) "EUR").GetPayableByRoundingMode RoundingModeFloor 100).amount
        = 1234/100
    ∧ ((NewFromFloat (-(1234567/100000)) "EUR").GetPayableByRoundingMode RoundingModeFloor 100).amount
        = -(1235/100)
    ∧ ((NewFromFloat (1234567/100000) "EUR").GetPayableByRoundingMode RoundingModeCeil 100).amount
        = 1235/100
    ∧ ((NewFromFloat (-(1234567/100000)) "EUR").GetPayableByRoundingMode RoundingModeCeil 100).amount
        = -(1234/100) := by
  refine ⟨?_, ?_, ?_, ?_, ?_, ?_, ?_, ?_, ?_, ?_⟩ <;>
  · simp only [Price.GetPayableByRoundingMode, Price.amountTruncatedFloat, Price.precisionF,
      Price.negativeSign, Price.IsNegative, Price.IsLessThenValue, Price.valueAfterPrecision,
      Price.fractionalPart, Price.integerPart, goTrunc, goRound, goInt64, roundingSwitch,
      RoundingModeCeil, RoundingModeHalfUp, RoundingModeHalfDown, RoundingModeFloor, NewFromFloat,
      String.reduceEq, reduceIte]
    norm_num

/-- C5: getPayable applies the fixed per-currency policy (Floor at
precision 1 for the currencies "miles"/"points" case-insensitively, HalfUp
at precision 100 otherwise), and on the concrete defaults
NewFromFloat(12.34567, "EUR") becomes 12.35 and NewFromFloat(-0.119, "EUR")
becomes -0.12. -/
theorem C5_getPayable_policy :
    (∀ p : Price,
      p.GetPayable =
        if goToLower p.currency = "miles" ∨ goToLower p.currency = "points" then
          p.GetPayableByRoundingMode RoundingModeFloor 1
        else p.GetPayableByRoundingMode RoundingModeHalfUp 100)
    ∧ ((NewFromFloat (1234567/100000) "EUR").GetPayable).amount = 1235/100
    ∧ ((NewFromFloat (-(119/1000)) "EUR").GetPayable).amount = -(12/100) := by
  have hpol : ∀ q : ℚ, (NewFromFloat q "EUR").payableRoundingPrecision = (RoundingModeHalfUp, 100) := by
    intro q
    simp [Price.payableRoundingPrecision, NewFromFloat, goToLower, charLower]
  refine ⟨?_, ?_, ?_⟩
  · intro p
    by_cases h : goToLower p.currency = "miles" ∨ goToLower p.currency = "points"
    · simp [Price.GetPayable, Price.payableRoundingPrecision, h]
    · simp [Price.GetPayable, Price.payableRoundingPrecision, h]
  · rw [Price.GetPayable, hpol]
    simp only [Price.GetPayableByRoundingMode, Price.amountTruncatedFloat, Price.precisionF,
      Price.negativeSign, Price.IsNegative, Price.IsLessThenValue, Price.valueAfterPrecision,
      Price.fractionalPart, Price.integerPart, goTrunc, goRound, goInt64, roundingSwitch,
      RoundingModeCeil, RoundingModeHalfUp, RoundingModeHalfDown, RoundingModeFloor, NewFromFloat,
      String.reduceEq, reduceIte]
    norm_num
  · rw [Price.GetPayable, hpol]
    simp only [Price.GetPayableByRoundingMode, Price.amountTruncatedFloat, Price.precisionF,
      Price.negativeSign, Price.IsNegative, Price.IsLessThenValue, Price.valueAfterPrecision,
      Price.fractionalPart, Price.integerPart, goTrunc, goRound, goInt64, roundingSwitch,
      RoundingModeCeil, RoundingModeHalfUp, RoundingModeHalfDown, RoundingModeFloor, NewFromFloat,
      String.reduceEq, reduceIte]
    norm_num

/-- goTrunc is the identity on integers. -/
theorem goTrunc_intCast (z : ℤ) : goTrunc (z : ℚ) = z := by
  unfold goTrunc
  split_ifs with h
  · rw [← Int.cast_neg, Int.floor_intCast]
    ring
  · simp [Int.floor_intCast]

/-- Truncation toward zero does not increase the magnitude. -/
theorem abs_goTrunc_le (q : ℚ) : |(goTrunc q : ℚ)| ≤ |q| := by
  unfold goTrunc
  split_ifs with h
  · have h1 : (0:ℚ) ≤ -q := by linarith
    have h2 : ((⌊-q⌋ : ℤ) : ℚ) ≤ -q := Int.floor_le _
    have h3 : (0:ℤ) ≤ ⌊-q⌋ := Int.floor_nonneg.mpr h1
    have h4 : (0:ℚ) ≤ ((⌊-q⌋ : ℤ) : ℚ) := by exact_mod_cast h3
    calc |((-⌊-q⌋ : ℤ) : ℚ)| = |((⌊-q⌋ : ℤ) : ℚ)| := by push_cast; rw [abs_neg]
      _ = ((⌊-q⌋ : ℤ) : ℚ) := abs_of_nonneg h4
      _ ≤ -q := h2
      _ = |q| := (abs_of_neg h).symm
  · have h0 : (0:ℚ) ≤ q := not_lt.mp h
    have h2 : ((⌊q⌋ : ℤ) : ℚ) ≤ q := Int.floor_le _
    have h3 : (0:ℤ) ≤ ⌊q⌋ := Int.floor_nonneg.mpr h0
    have h4 : (0:ℚ) ≤ ((⌊q⌋ : ℤ) : ℚ) := by exact_mod_cast h3
    calc |((⌊q⌋ : ℤ) : ℚ)| = ((⌊q⌋ : ℤ) : ℚ) := abs_of_nonneg h4
      _ ≤ q := h2
      _ = |q| := (abs_of_nonneg h0).symm

/-- A scaled amount strictly inside the int64 range truncates to an
integer strictly inside the int64 range. -/
theorem goTrunc_range (q : ℚ) (h : |q| < (2:ℚ)^63) :
    -(2^63) < goTrunc q ∧ goTrunc q < 2^63 := by
  have h1 : |(goTrunc q : ℚ)| < (2:ℚ)^63 := lt_of_le_of_lt (abs_goTrunc_le q) h
  have h2 : |goTrunc q| < 2^63 := by exact_mod_cast h1
  exact abs_lt.mp h2

/-- The int64 conversion is the identity on in-range integers. -/
theorem goInt64_intCast (z : ℤ) (hlo : -(2^63) ≤ z) (hhi : z < 2^63) :
    goInt64 (z : ℚ) = z := by
  unfold goInt64
  rw [if_neg, goTrunc_intCast]
  rw [not_or, not_le, not_lt]
  constructor
  · exact_mod_cast hhi
  · have : ((-(2^63) : ℤ) : ℚ) ≤ (z : ℚ) := by exact_mod_cast hlo
    push_cast at this ⊢
    linarith

/-- A price whose amount is not within the 1e-9 tolerance of zero is not
IsZero. -/
theorem isZero_eq_false (p : Price) (h : ¬ |p.amount| < 1/1000000000) : p.IsZero = false := by
  cases hb : p.IsZero with
  | false => rfl
  | true => exact absurd ((isZero_iff p).mp hb) h

/-- C10: the currency guard's zero exemption uses the tolerance
comparator: a price with nonzero amount strictly below 1e-9 in magnitude
adds into a price of a different currency without error, the sub-tolerance
amount being carried into the other currency's sum. -/
theorem C10_subtolerance_currency_adoption (a b : Price)
    (h1 : |a.amount| < 1/1000000000) (h2 : a.amount ≠ 0) (_h3 : a.currency ≠ b.currency) :
    a.Add b = (⟨a.amount + b.amount, b.currency⟩, none) ∧ a.amount + b.amount ≠ b.amount := by
  refine ⟨add_of_isZero a b ((isZero_iff a).mpr h1), ?_⟩
  intro hcontra
  apply h2
  linarith

/-- C10 witness: the sub-tolerance amount 1e-10 in currency X added to 1
in currency Y succeeds and yields 1 + 1e-10 in currency Y. -/
theorem C10_subtolerance_currency_adoption_witness :
    |((1:ℚ)/10000000000)| < 1/1000000000 ∧ ((1:ℚ)/10000000000) ≠ 0
      ∧ ("X" : String) ≠ "Y"
      ∧ (⟨1/10000000000, "X"⟩ : Price).Add ⟨1, "Y"⟩ = (⟨1/10000000000 + 1, "Y"⟩, none) := by
  refine ⟨by rw [abs_of_pos] <;> norm_num, by norm_num, by decide, ?_⟩
  exact (C10_subtolerance_currency_adoption ⟨1/10000000000, "X"⟩ ⟨1, "Y"⟩
    (by rw [abs_of_pos] <;> norm_num) (by norm_num) (by decide)).1

/-- C2 counterexample: the claim "for every zero-valued a and every b,
a.Add(b) is Equal to b" fails at a = 1e-10 in currency X (zero-valued
under the code's tolerance-based IsZero) and b = 1 in currency Y: the add
succeeds but the result 1 + 1e-10 is not Equal to b. -/
theorem C2_currency_guard_counterexample :
    (⟨1/10000000000, "X"⟩ : Price).IsZero = true
      ∧ ((⟨1/10000000000, "X"⟩ : Price).Add ⟨1, "Y"⟩).2 = none
      ∧ (((⟨1/10000000000, "X"⟩ : Price).Add ⟨1, "Y"⟩).1.Equal ⟨1, "Y"⟩) = false := by
  have hz : (⟨1/10000000000, "X"⟩ : Price).IsZero = true :=
    (isZero_iff _).mpr (by rw [abs_of_pos] <;> norm_num)
  have h := add_of_isZero ⟨1/10000000000, "X"⟩ ⟨1, "Y"⟩ hz
  refine ⟨hz, by rw [h], ?_⟩
  rw [h]
  simp only [Price.Equal]
  norm_num

/-- C2 amended: for non-zero-valued (under the code's tolerance-based
IsZero) prices of different currencies, Add and Sub fail with the currency
mismatch error; for any tolerance-zero a and any b, a.Add(b) succeeds
carrying b's currency and the amount sum a + b, and the result is Equal to
b when a's amount is exactly zero. -/
theorem C2_currency_guard_amended (a b : Price) :
    (a.IsZero = false → b.IsZero = false → a.currency ≠ b.currency →
      (a.Add b).2 = some "cannot calculate prices in different currencies"
        ∧ (a.Sub b).2 = some "cannot calculate prices in different currencies")
    ∧ (a.IsZero = true →
      (a.Add b).2 = none ∧ (a.Add b).1 = ⟨a.amount + b.amount, b.currency⟩
        ∧ (a.amount = 0 → ((a.Add b).1.Equal b) = true)) := by
  constructor
  · intro ha hb hc
    constructor
    · simp [Price.Add, Price.currencyGuard, hc, ha, hb]
    · simp [Price.Sub, Price.currencyGuard, hc, ha, hb]
  · intro hz
    rw [add_of_isZero a b hz]
    refine ⟨rfl, rfl, ?_⟩
    intro h0
    simp [Price.Equal, h0]

/-- C2 witness: 1 EUR plus 2 USD fails with the currency mismatch error,
and exact-zero in currency X plus 7 in currency Y is Equal to 7 Y. -/
theorem C2_currency_guard_witness :
    ((⟨1, "EUR"⟩ : Price).Add ⟨2, "USD"⟩).2 = some "cannot calculate prices in different currencies"
      ∧ (((⟨0, "X"⟩ : Price).Add ⟨7, "Y"⟩).1.Equal ⟨7, "Y"⟩) = true := by
  constructor
  · exact ((C2_currency_guard_amended ⟨1, "EUR"⟩ ⟨2, "USD"⟩).1
      (isZero_eq_false _ (by norm_num)) (isZero_eq_false _ (by norm_num)) (by decide)).1
  · exact ((C2_currency_guard_amended ⟨0, "X"⟩ ⟨7, "Y"⟩).2
      ((isZero_iff _).mpr (by norm_num))).2.2 rfl

/-- C8: for prices of equal currency, adding b and then subtracting b
succeeds and yields a price Equal to the original. -/
theorem C8_add_sub_roundtrip (a b : Price) (h : a.currency = b.currency) :
    (a.Add b).2 = none ∧ ((a.Add b).1.Sub b).2 = none
      ∧ (((a.Add b).1.Sub b).1.Equal a) = true := by
  rw [add_same_currency a b h]
  have h2 := sub_same_currency (⟨a.amount + b.amount, b.currency⟩ : Price) b rfl
  refine ⟨rfl, ?_, ?_⟩
  · show ((⟨a.amount + b.amount, b.currency⟩ : Price).Sub b).2 = none
    rw [h2]
  · show (((⟨a.amount + b.amount, b.currency⟩ : Price).Sub b).1.Equal a) = true
    rw [h2]
    simp [Price.Equal, h]

/-- C8 witness: 3 EUR plus 4 EUR minus 4 EUR is Equal to 3 EUR. -/
theorem C8_add_sub_roundtrip_witness :
    ((((⟨3, "EUR"⟩ : Price).Add ⟨4, "EUR"⟩).1.Sub ⟨4, "EUR"⟩).1.Equal ⟨3, "EUR"⟩) = true :=
  (C8_add_sub_roundtrip ⟨3, "EUR"⟩ ⟨4, "EUR"⟩ rfl).2.2

/-- C4 counterexample: the MaxInt64 guard only checks the positive side,
so the large negative amount -2^64 is NOT returned unchanged: its int64
conversion saturates and floor-mode rounding returns -2^63. -/
theorem C4_maxint_guard_counterexample :
    ((⟨-((2:ℚ)^64), "EUR"⟩ : Price).GetPayableByRoundingMode RoundingModeFloor 1)
        = ⟨-((2:ℚ)^63), "EUR"⟩
      ∧ ((⟨-((2:ℚ)^64), "EUR"⟩ : Price).GetPayableByRoundingMode RoundingModeFloor 1)
        ≠ ⟨-((2:ℚ)^64), "EUR"⟩ := by
  have h : ((⟨-((2:ℚ)^64), "EUR"⟩ : Price).GetPayableByRoundingMode RoundingModeFloor 1)
      = ⟨-((2:ℚ)^63), "EUR"⟩ := by
    simp only [Price.GetPayableByRoundingMode, Price.amountTruncatedFloat, Price.precisionF,
      Price.negativeSign, Price.IsNegative, Price.IsLessThenValue, Price.valueAfterPrecision,
      Price.fractionalPart, Price.integerPart, goTrunc, goRound, goInt64, roundingSwitch,
      RoundingModeCeil, RoundingModeHalfUp, RoundingModeHalfDown, RoundingModeFloor,
      String.reduceEq, reduceIte]
    norm_num
  refine ⟨h, ?_⟩
  rw [h]
  intro hcontra
  have := congrArg Price.amount hcontra
  simp only [] at this
  norm_num at this

/-- C4 amended: the guard applies on the positive side only - for every
amount whose value scaled by the precision is at least 2^63, rounding is
skipped and the price is returned with the value unchanged and the
currency preserved (large negative amounts are not guarded). -/
theorem C4_maxint_guard_amended (p : Price) (mode : String) (precision : ℤ)
    (h : p.amount * (precision : ℚ) ≥ (2:ℚ)^63) :
    p.GetPayableByRoundingMode mode precision = ⟨p.amount, p.currency⟩ := by
  have h' : p.amountTruncatedFloat precision ≥ (2:ℚ)^63 := h
  rw [Price.GetPayableByRoundingMode, if_pos h']

/-- C4 witness: the amount 2^63 at precision 1 is returned unchanged by
every mode, here floor. -/
theorem C4_maxint_guard_witness :
    ((2:ℚ)^63) * ((1:ℤ) : ℚ) ≥ (2:ℚ)^63
      ∧ ((⟨(2:ℚ)^63, "EUR"⟩ : Price).GetPayableByRoundingMode RoundingModeFloor 1)
        = ⟨(2:ℚ)^63, "EUR"⟩ := by
  refine ⟨by norm_num, ?_⟩
  exact C4_maxint_guard_amended ⟨(2:ℚ)^63, "EUR"⟩ RoundingModeFloor 1 (by norm_num)

/-- C9 counterexample: with an unknown mode the price is NOT always the
truncation at the given precision - at the amount 2^63 + 1/2 the MaxInt64
guard returns the amount unchanged instead of truncating. -/
theorem C9_unknown_mode_counterexample :
    ((⟨(2:ℚ)^63 + 1/2, "EUR"⟩ : Price).GetPayableByRoundingMode "" 1)
        = ⟨(2:ℚ)^63 + 1/2, "EUR"⟩
      ∧ ((2:ℚ)^63 + 1/2) ≠ ((goTrunc (((2:ℚ)^63 + 1/2) * ((1:ℤ) : ℚ)) : ℤ) : ℚ) / ((1:ℤ) : ℚ) := by
  constructor
  · have h : ((⟨(2:ℚ)^63 + 1/2, "EUR"⟩ : Price)).amountTruncatedFloat 1 ≥ (2:ℚ)^63 := by
      show ((2:ℚ)^63 + 1/2) * ((1:ℤ) : ℚ) ≥ (2:ℚ)^63
      norm_num
    rw [Price.GetPayableByRoundingMode, if_pos h]
  · have h : goTrunc (((2:ℚ)^63 + 1/2) * ((1:ℤ) : ℚ)) = 2^63 := by
      unfold goTrunc
      rw [if_neg (by norm_num)]
      rw [show (((2:ℚ)^63 + 1/2) * ((1:ℤ) : ℚ)) = (2:ℚ)^63 + 1/2 by norm_num]
      rw [show ((2:ℚ)^63 + 1/2) = ((2^63 : ℤ) : ℚ) + 1/2 by norm_num]
      rw [Int.floor_int_add]
      norm_num
    rw [h]
    push_cast
    norm_num

/-- C9 amended: an unknown mode performs no increment in any branch, so
whenever the scaled amount lies strictly inside the int64 range the result
is the amount truncated toward zero at the given precision, with the
currency preserved; at or above 2^63 the guard returns the amount
unchanged instead. -/
theorem C9_unknown_mode_truncates (p : Price) (mode : String) (precision : ℤ)
    (hm1 : mode ≠ RoundingModeFloor) (hm2 : mode ≠ RoundingModeCeil)
    (hm3 : mode ≠ RoundingModeHalfUp) (hm4 : mode ≠ RoundingModeHalfDown)
    (hlo : -((2:ℚ)^63) < p.amount * (precision : ℚ))
    (hhi : p.amount * (precision : ℚ) < (2:ℚ)^63) :
    p.GetPayableByRoundingMode mode precision
      = ⟨((goTrunc (p.amount * (precision : ℚ)) : ℤ) : ℚ) / ((precision : ℤ) : ℚ), p.currency⟩ := by
  have hguard : ¬ (p.amountTruncatedFloat precision ≥ (2:ℚ)^63) := not_le.mpr hhi
  rw [Price.GetPayableByRoundingMode, if_neg hguard]
  have hswitch : roundingSwitch mode p.negativeSign (p.valueAfterPrecision precision)
      (goInt64 (p.integerPart precision)) = goInt64 (p.integerPart precision) := by
    unfold roundingSwitch
    rw [if_neg hm2, if_neg hm3, if_neg hm4, if_neg hm1]
  rw [hswitch]
  have hr := goTrunc_range (p.amount * (precision : ℚ)) (abs_lt.mpr ⟨hlo, hhi⟩)
  have hint : goInt64 (p.integerPart precision) = goTrunc (p.amount * (precision : ℚ)) :=
    goInt64_intCast _ (le_of_lt hr.1) hr.2
  rw [hint]
  rfl

/-- C9 witness: the unknown mode "unknownMode" truncates 12.345 at
precision 100 to 12.34. -/
theorem C9_unknown_mode_truncates_witness :
    ((⟨12345/1000, "EUR"⟩ : Price).GetPayableByRoundingMode "unknownMode" 100)
      = ⟨((goTrunc ((12345/1000 : ℚ) * ((100:ℤ) : ℚ)) : ℤ) : ℚ) / ((100:ℤ) : ℚ), "EUR"⟩ :=
  C9_unknown_mode_truncates ⟨12345/1000, "EUR"⟩ "unknownMode" 100
    (by decide) (by decide) (by decide) (by decide) (by norm_num) (by norm_num)

/-- C7: AddCharge mutates the shared map object, so the receiver ledger
observes the mutation: before the call the original ledger has no
"giftcard" entry, after `L.AddCharge(giftcardCharge)` the SAME original
ledger suddenly has one - ledger snapshots are not isolated. -/
theorem C7_addCharge_mutates_receiver :
    (Charges.GetByChargeQualifier [[(⟨"main", ""⟩, ⟨⟨2, "EUR"⟩, ⟨2, "EUR"⟩, "main", ""⟩)]]
        ⟨some 0⟩ ⟨"giftcard", ""⟩).2 = false
      ∧ (Charges.GetByChargeQualifier
          (Charges.AddCharge [[(⟨"main", ""⟩, ⟨⟨2, "EUR"⟩, ⟨2, "EUR"⟩, "main", ""⟩)]]
            ⟨some 0⟩ ⟨⟨1, "EUR"⟩, ⟨1, "EUR"⟩, "giftcard", ""⟩).1
          ⟨some 0⟩ ⟨"giftcard", ""⟩).2 = true := by
  constructor
  · simp [Charges.GetByChargeQualifier, Charges.HasChargeQualifier, mapLookup, storeRead]
  · simp [Charges.GetByChargeQualifier, Charges.HasChargeQualifier, Charges.AddCharge,
      Charges.addChargeRef, mapLookup, mapStore, storeRead, storeWrite]

/-- qpow10 agrees with the integer power of ten. -/
theorem qpow10_eq_zpow (e : ℤ) : qpow10 e = (10:ℚ)^e := by
  unfold qpow10
  split_ifs with h
  · rw [← zpow_natCast, Int.toNat_of_nonneg h]
  · rw [← zpow_natCast, Int.toNat_of_nonneg (by omega : (0:ℤ) ≤ -e), ← zpow_neg, neg_neg]

/-- roundHalfEven is the identity on integers. -/
theorem roundHalfEven_intCast (z : ℤ) : roundHalfEven (z : ℚ) = z := by
  unfold roundHalfEven
  norm_num [Int.floor_intCast]

/-- Formatting to 10 significant decimal digits is lossless exactly on
decimals whose integer mantissa has at most 10 digits. -/
theorem stringG10_eq_self (m : ℤ) (k : ℕ) (hm : m.natAbs < 10^10) :
    stringG10 ((m:ℚ) / 10^k) = (m:ℚ) / 10^k := by
  by_cases hm0 : m = 0
  · subst hm0
    simp [stringG10]
  · have hq0 : (m:ℚ) / 10^k ≠ 0 := div_ne_zero (Int.cast_ne_zero.mpr hm0) (by positivity)
    set q : ℚ := (m:ℚ) / 10^k with hqdef
    have habs : |q| = (m.natAbs : ℚ) / 10^k := by
      rw [hqdef, abs_div, abs_of_pos (by positivity : (0:ℚ) < 10^k)]
      congr 1
      rw [Int.cast_natAbs, Int.cast_abs]
    have hqpos : (0:ℚ) < |q| := abs_pos.mpr hq0
    rw [show stringG10 q =
        (if q < 0 then (-1:ℚ) else 1) *
          (((roundHalfEven (|q| / qpow10 (Int.log 10 |q| - 9)) : ℤ) : ℚ) *
            qpow10 (Int.log 10 |q| - 9)) from by rw [stringG10, if_neg hq0]]
    set e : ℤ := Int.log 10 |q| with he
    have h1 : (10:ℚ)^e ≤ |q| := Int.zpow_log_le_self (by norm_num) hqpos
    have hmlt : (m.natAbs : ℚ) < 10^10 := by exact_mod_cast hm
    have hnn : (0:ℚ) ≤ (m.natAbs : ℚ) := by positivity
    have hek : e + k ≤ 9 := by
      by_contra hcon
      push_neg at hcon
      have h10le : (10:ℤ) ≤ e + k := by omega
      have h2 : (10:ℚ)^(e + (k:ℤ)) ≤ |q| * 10^k := by
        rw [zpow_add₀ (by norm_num : (10:ℚ) ≠ 0), zpow_natCast]
        exact mul_le_mul_of_nonneg_right h1 (by positivity)
      have h3 : |q| * 10^k = (m.natAbs : ℚ) := by
        rw [habs]
        field_simp
      have h4 : (10:ℚ)^(10:ℤ) ≤ (m.natAbs : ℚ) := by
        calc (10:ℚ)^(10:ℤ) ≤ (10:ℚ)^(e + (k:ℤ)) := by
              exact zpow_le_zpow_right₀ (by norm_num) h10le
          _ ≤ |q| * 10^k := h2
          _ = _ := h3
      rw [show ((10:ℚ)^(10:ℤ)) = ((10:ℚ)^(10:ℕ)) from zpow_natCast 10 10] at h4
      norm_num at h4
      linarith
    have ht0 : (0:ℤ) ≤ 9 - e - k := by omega
    set t : ℕ := ((9:ℤ) - e - k).toNat with ht
    have ht9 : ((9:ℤ) - e - k) = (t:ℤ) := (Int.toNat_of_nonneg ht0).symm
    have hscaled : |q| / qpow10 (e - 9) = (m.natAbs : ℚ) * 10^t := by
      rw [qpow10_eq_zpow, habs, div_div,
        show ((10:ℚ)^(k:ℕ)) = ((10:ℚ)^(k:ℤ)) from (zpow_natCast 10 k).symm,
        ← zpow_add₀ (by norm_num : (10:ℚ) ≠ 0), div_eq_mul_inv, ← zpow_neg,
        show (-((k:ℤ) + (e - 9))) = (t:ℤ) by omega, zpow_natCast]
    have hint : roundHalfEven (|q| / qpow10 (e - 9)) = (m.natAbs : ℤ) * 10^t := by
      rw [hscaled, show ((m.natAbs:ℚ) * 10^t) = (((m.natAbs : ℤ) * 10^t : ℤ) : ℚ) by
        push_cast
        rw [Int.cast_natAbs, Int.cast_abs]]
      exact roundHalfEven_intCast _
    rw [hint]
    have hval : ((((m.natAbs : ℤ) * 10^t : ℤ)) : ℚ) * qpow10 (e - 9) = |q| := by
      push_cast
      rw [qpow10_eq_zpow, habs,
        show ((10:ℚ)^(t:ℕ)) = ((10:ℚ)^(t:ℤ)) from (zpow_natCast 10 t).symm, mul_assoc,
        ← zpow_add₀ (by norm_num : (10:ℚ) ≠ 0),
        show ((t:ℤ) + (e - 9)) = -(k:ℤ) by omega,
        zpow_neg, zpow_natCast, div_eq_mul_inv, Int.cast_natAbs, Int.cast_abs]
    rw [hval]
    split_ifs with hneg
    · rw [abs_of_neg hneg]
      ring
    · rw [abs_of_nonneg (not_lt.mp hneg)]
      ring

/-- C6 counterexample: the Amount 1.23456789012345 (15 significant
digits) does not round-trip: String() emits at most 10 significant
digits, so decode gives 1.23456789, which is not Equal to the original. -/
theorem C6_roundtrip_counterexample :
    ((Price.UnmarshalText (Price.MarshalText ⟨123456789012345/100000000000000, "EUR"⟩)).Equal
      ⟨123456789012345/100000000000000, "EUR"⟩) = false := by
  have habs : |(123456789012345/100000000000000 : ℚ)| = 123456789012345/100000000000000 := by
    rw [abs_of_pos]
    norm_num
  have hlog : Int.log 10 |(123456789012345/100000000000000 : ℚ)| = 0 := by
    rw [habs, Int.log_of_one_le_right _ (by norm_num)]
    rw [show (⌊(123456789012345/100000000000000 : ℚ)⌋₊) = 1 from by
      rw [Nat.floor_eq_iff (by norm_num)]
      norm_num]
    simp
  have hq : stringG10 (123456789012345/100000000000000) = 123456789/100000000 := by
    rw [stringG10, if_neg (by norm_num), hlog, if_neg (by norm_num), habs]
    rw [show qpow10 ((0:ℤ) - 9) = ((10:ℚ)^(9:ℕ))⁻¹ from by
      norm_num [qpow10]
      rw [show Int.toNat 9 = 9 from rfl]
      norm_num]
    rw [show ((123456789012345/100000000000000 : ℚ) / ((10:ℚ)^(9:ℕ))⁻¹)
        = 1234567890 + 12345/100000 from by norm_num]
    rw [show roundHalfEven ((1234567890 : ℚ) + 12345/100000) = 1234567890 from by
      unfold roundHalfEven
      norm_num]
    norm_num
  simp only [Price.MarshalText, Price.UnmarshalText, Price.Equal, hq]
  norm_num

/-- C6 amended: encode-then-decode reproduces an Equal Amount exactly for
amounts whose value is a decimal with at most 10 significant digits
(mantissa below 10^10); amounts needing 15 significant digits are
truncated to 10 digits by String() and do NOT round-trip. -/
theorem C6_roundtrip_amended (p : Price) (m : ℤ) (k : ℕ)
    (hval : p.amount = (m:ℚ) / 10^k) (hm : m.natAbs < 10^10) :
    ((Price.UnmarshalText (Price.MarshalText p)).Equal p) = true := by
  simp [Price.UnmarshalText, Price.MarshalText, Price.Equal, hval, stringG10_eq_self m k hm]

/-- C6 witness: 2.45 EUR (three significant digits) round-trips Equal. -/
theorem C6_roundtrip_amended_witness :
    ((245:ℚ)/100 = ((245:ℤ):ℚ) / 10^2) ∧ (245:ℤ).natAbs < 10^10
      ∧ ((Price.UnmarshalText (Price.MarshalText ⟨245/100, "EUR"⟩)).Equal ⟨245/100, "EUR"⟩)
          = true := by
  refine ⟨by norm_num, by norm_num, ?_⟩
  exact C6_roundtrip_amended ⟨245/100, "EUR"⟩ 245 2 (by norm_num) (by norm_num)

/-- goTrunc of a nonnegative rational is nonnegative. -/
theorem goTrunc_nonneg (q : ℚ) (h : 0 ≤ q) : 0 ≤ goTrunc q := by
  unfold goTrunc
  rw [if_neg (not_lt.mpr h)]
  exact Int.floor_nonneg.mpr h

/-- goTrunc of a nonpositive rational is nonpositive. -/
theorem goTrunc_nonpos (q : ℚ) (h : q ≤ 0) : goTrunc q ≤ 0 := by
  unfold goTrunc
  split_ifs with h'
  · have h1 : (0:ℤ) ≤ ⌊-q⌋ := Int.floor_nonneg.mpr (by linarith)
    omega
  · have h0 : q = 0 := le_antisymm h (not_lt.mp h')
    simp [h0]

/-- The rounding switch either keeps the truncated integer or moves it by
the sign unit. -/
theorem roundingSwitch_cases (mode : String) (n : ℤ) (D : ℚ) (I : ℤ) :
    roundingSwitch mode n D I = I ∨ roundingSwitch mode n D I = I + n := by
  unfold roundingSwitch
  split_ifs <;> simp

/-- The sign unit of a negative price is -1. -/
theorem negativeSign_of_neg (p : Price) (h : p.amount < 0) : p.negativeSign = -1 := by
  simp [Price.negativeSign, Price.IsNegative, Price.IsLessThenValue, h]

/-- The sign unit of a nonnegative price is 1. -/
theorem negativeSign_of_nonneg (p : Price) (h : 0 ≤ p.amount) : p.negativeSign = 1 := by
  simp [Price.negativeSign, Price.IsNegative, Price.IsLessThenValue, not_lt.mpr h]

/-- The currency policy returns one of the two table rows. -/
theorem payableRoundingPrecision_cases (p : Price) :
    p.payableRoundingPrecision = (RoundingModeFloor, 1)
      ∨ p.payableRoundingPrecision = (RoundingModeHalfUp, 100) := by
  unfold Price.payableRoundingPrecision
  split_ifs <;> simp

/-- In the non-guarded regime with a positive precision,
GetPayableByRoundingMode returns a quotient of a sign-faithful in-range
integer by the precision, with the currency preserved. -/
theorem getPayableByRoundingMode_spec (p : Price) (mode : String) (precision : ℤ)
    (hprec : 0 < precision)
    (h : |p.amount * (precision : ℚ)| < (2:ℚ)^63 - 1) :
    ∃ T : ℤ, p.GetPayableByRoundingMode mode precision
        = ⟨(T : ℚ) / ((precision : ℤ) : ℚ), p.currency⟩
      ∧ |T| < 2^63
      ∧ (p.amount < 0 → T ≤ 0)
      ∧ (0 ≤ p.amount → 0 ≤ T) := by
  have hpq : (0:ℚ) < (precision : ℚ) := by exact_mod_cast hprec
  have habs := abs_lt.mp h
  have hguard : ¬ (p.amountTruncatedFloat precision ≥ (2:ℚ)^63) := by
    show ¬ (p.amount * (precision : ℚ) ≥ (2:ℚ)^63)
    push_neg
    linarith [habs.2]
  rw [Price.GetPayableByRoundingMode, if_neg hguard]
  have hIb : |(goTrunc (p.amount * (precision : ℚ)) : ℚ)| < (2:ℚ)^63 - 1 :=
    lt_of_le_of_lt (abs_goTrunc_le _) h
  have hIbz : |goTrunc (p.amount * (precision : ℚ))| < 2^63 - 1 := by
    have hcast : ((2:ℚ)^63 - 1) = (((2^63 - 1 : ℤ)) : ℚ) := by push_cast; ring
    rw [hcast] at hIb
    exact_mod_cast hIb
  have habsI := abs_lt.mp hIbz
  have hconv : goInt64 (p.integerPart precision) = goTrunc (p.amount * (precision : ℚ)) := by
    show goInt64 ((goTrunc (p.amount * (precision : ℚ)) : ℤ) : ℚ) = _
    refine goInt64_intCast _ ?_ ?_
    · omega
    · omega
  rw [hconv]
  have hneg_trunc : p.amount < 0 → goTrunc (p.amount * (precision : ℚ)) ≤ 0 := fun ha =>
    goTrunc_nonpos _ (le_of_lt (mul_neg_of_neg_of_pos ha hpq))
  have hpos_trunc : 0 ≤ p.amount → 0 ≤ goTrunc (p.amount * (precision : ℚ)) := fun ha =>
    goTrunc_nonneg _ (mul_nonneg ha (le_of_lt hpq))
  rcases roundingSwitch_cases mode p.negativeSign (p.valueAfterPrecision precision)
      (goTrunc (p.amount * (precision : ℚ))) with hc | hc <;> rw [hc]
  · refine ⟨goTrunc (p.amount * (precision : ℚ)), rfl, ?_, hneg_trunc, hpos_trunc⟩
    refine abs_lt.mpr ⟨?_, ?_⟩
    · omega
    · omega
  · refine ⟨goTrunc (p.amount * (precision : ℚ)) + p.negativeSign, rfl, ?_, ?_, ?_⟩
    · have hsign : p.negativeSign = -1 ∨ p.negativeSign = 1 := by
        unfold Price.negativeSign
        split_ifs <;> simp
      refine abs_lt.mpr ⟨?_, ?_⟩ <;> rcases hsign with hs | hs <;> rw [hs] <;> omega
    · intro ha
      rw [negativeSign_of_neg p ha]
      have := hneg_trunc ha
      omega
    · intro ha
      rw [negativeSign_of_nonneg p ha]
      have := hpos_trunc ha
      omega

/-- A negative price is IsNegative. -/
theorem isNegative_of_neg (p : Price) (h : p.amount < 0) : p.IsNegative = true := by
  simp [Price.IsNegative, Price.IsLessThenValue, h]

/-- A nonnegative price is not IsNegative. -/
theorem isNegative_of_nonneg (p : Price) (h : 0 ≤ p.amount) : p.IsNegative = false := by
  simp [Price.IsNegative, Price.IsLessThenValue, not_lt.mpr h]

/-- NewFromInt always carries the given currency. -/
theorem NewFromInt_currency (a b : ℤ) (c : String) : (NewFromInt a b c).currency = c := by
  unfold NewFromInt
  split_ifs <;> rfl

/-- NewFromInt with nonzero precision carries the exact quotient. -/
theorem NewFromInt_amount (a b : ℤ) (c : String) (h : b ≠ 0) :
    (NewFromInt a b c).amount = (a : ℚ) / (b : ℚ) := by
  unfold NewFromInt
  rw [if_neg h]

/-- Folding sumStep over same-currency prices accumulates the amounts. -/
theorem foldl_sumStep_same_currency (c : String) (l : List Price) (acc : ℚ)
    (hcur : ∀ x ∈ l, x.currency = c) :
    l.foldl sumStep ((⟨acc, c⟩ : Price), (none : Option String))
      = (⟨acc + (l.map Price.amount).sum, c⟩, none) := by
  induction l generalizing acc with
  | nil => simp
  | cons x xs ih =>
    have hx : x.currency = c := hcur x (by simp)
    have hxs : ∀ y ∈ xs, y.currency = c := fun y hy => hcur y (by simp [hy])
    rw [List.foldl_cons,
      show sumStep ((⟨acc, c⟩ : Price), none) x = Price.Add ⟨acc, c⟩ x from rfl,
      add_same_currency ⟨acc, c⟩ x (by simp [hx])]
    rw [show (⟨(⟨acc, c⟩ : Price).amount + x.amount, x.currency⟩ : Price)
        = (⟨acc + x.amount, c⟩ : Price) from by rw [hx]]
    rw [ih (acc + x.amount) hxs]
    simp [add_assoc]

/-- SumAll over a nonempty same-currency list succeeds with the amount
sum in that currency. -/
theorem sumAll_same_currency (c : String) (l : List Price) (hne : l ≠ [])
    (hcur : ∀ x ∈ l, x.currency = c) :
    SumAll l = (⟨(l.map Price.amount).sum, c⟩, none) := by
  match l, hne with
  | first :: rest, _ =>
    have hf : first.currency = c := hcur first (by simp)
    have hr : ∀ y ∈ rest, y.currency = c := fun y hy => hcur y (by simp [hy])
    rw [show SumAll (first :: rest) = rest.foldl sumStep (first.Clone, none) from rfl,
      show first.Clone = (⟨first.amount, c⟩ : Price) from by rw [Price.Clone, hf],
      foldl_sumStep_same_currency c rest first.amount hr]
    simp

/-- Sum of the largest-remainder shares: putting one extra unit on the
first `min r k` of `k` base shares. -/
theorem sum_shares (k : ℕ) (base r : ℤ) (h0 : 0 ≤ r) :
    (((List.range k).map fun (i : ℕ) => if (i : ℤ) < r then base + 1 else base).sum)
      = k * base + min r k := by
  induction k with
  | zero => simp [min_eq_right h0]
  | succ n ih =>
    rw [List.range_succ, List.map_append, List.sum_append, ih]
    simp only [List.map_cons, List.map_nil, List.sum_cons, List.sum_nil, add_zero]
    rw [Nat.cast_succ]
    by_cases hc : (n : ℤ) < r
    · rw [if_pos hc, min_eq_right (by omega : (n:ℤ) ≤ r),
        min_eq_right (by omega : (n:ℤ) + 1 ≤ r)]
      ring
    · rw [if_neg hc, min_eq_left (by omega : r ≤ (n:ℤ)),
        min_eq_left (by omega : r ≤ (n:ℤ) + 1)]
      ring

/-- Sum of the casts of integer shares divided by a common denominator. -/
theorem sum_map_cast_div (l : List ℤ) (d : ℚ) :
    ((l.map fun z => ((z : ℤ) : ℚ) / d).sum) = ((l.sum : ℤ) : ℚ) / d := by
  induction l with
  | nil => simp
  | cons x xs ih =>
    simp only [List.map_cons, List.sum_cons, ih]
    push_cast
    ring

/-- Sum of the casts of negated integer shares divided by a common
denominator. -/
theorem sum_map_cast_div_neg (l : List ℤ) (d : ℚ) :
    ((l.map fun z => ((z * -1 : ℤ) : ℚ) / d).sum) = -(((l.sum : ℤ) : ℚ) / d) := by
  induction l with
  | nil => simp
  | cons x xs ih =>
    simp only [List.map_cons, List.sum_cons, ih]
    push_cast
    ring

/-- The closed form of SplitInPayables for a positive count. -/
theorem splitInPayables_closed (p : Price) (count : ℤ) (h : ¬ count ≤ 0) :
    p.SplitInPayables count = Except.ok
      (((List.range count.toNat).map fun (i : ℕ) =>
          if (i : ℤ) < Int.tmod (goInt64 ((if p.IsNegative then p.GetPayable.Inverse.Amount
              else p.GetPayable.Amount) * p.precisionF (p.payableRoundingPrecision).2)) count
          then Int.tdiv (goInt64 ((if p.IsNegative then p.GetPayable.Inverse.Amount
              else p.GetPayable.Amount) * p.precisionF (p.payableRoundingPrecision).2)) count + 1
          else Int.tdiv (goInt64 ((if p.IsNegative then p.GetPayable.Inverse.Amount
              else p.GetPayable.Amount) * p.precisionF (p.payableRoundingPrecision).2)) count).map
        fun sa => NewFromInt (if p.IsNegative then sa * (-1) else sa)
          (p.payableRoundingPrecision).2 p.Currency) := by
  rw [Price.SplitInPayables, if_neg h]

/-- Core of the split/sum reconstruction: with the policy row (mode, prec),
a positive count and an in-range scaled amount, SplitInPayables returns
count payable parts whose SumAll is exactly the payable price. -/
theorem split_sum_general (p : Price) (n : ℤ) (mode : String) (prec : ℤ)
    (hpol : p.payableRoundingPrecision = (mode, prec))
    (hprec : 0 < prec) (h1 : 1 ≤ n)
    (h2 : |p.amount * (prec : ℚ)| < (2:ℚ)^63 - 1) :
    ∃ parts : List Price,
      p.SplitInPayables n = Except.ok parts
      ∧ parts.length = n.toNat
      ∧ (SumAll parts).2 = none
      ∧ ((SumAll parts).1.Equal p.GetPayable) = true := by
  have hn0 : ¬ n ≤ 0 := by omega
  have hnz : n ≠ 0 := by omega
  have hntn : ((n.toNat : ℤ)) = n := Int.toNat_of_nonneg (by omega)
  have hpq : (0:ℚ) < (prec : ℚ) := by exact_mod_cast hprec
  obtain ⟨T, hpayT, hT, hTn, hTp⟩ := getPayableByRoundingMode_spec p mode prec hprec h2
  have hpay : p.GetPayable = ⟨(T : ℚ) / ((prec : ℤ) : ℚ), p.currency⟩ := by
    rw [Price.GetPayable, hpol]
    exact hpayT
  have habsT := abs_lt.mp hT
  have hsplit := splitInPayables_closed p n hn0
  rcases lt_or_le p.amount 0 with ha | ha
  · -- negative amount: the split works on the negated payable magnitude
    have hneg : p.IsNegative = true := isNegative_of_neg p ha
    have hMnn : (0:ℤ) ≤ -T := by have := hTn ha; omega
    have hM : ((if p.IsNegative then p.GetPayable.Inverse.Amount else p.GetPayable.Amount)
        * p.precisionF (p.payableRoundingPrecision).2) = ((-T : ℤ) : ℚ) := by
      rw [hneg, hpol, hpay]
      simp only [if_true, Price.Inverse, Price.Amount, Price.precisionF]
      push_cast
      field_simp
    rw [hM, goInt64_intCast (-T) (by omega) (by omega)] at hsplit
    simp only [hneg, hpol, if_true] at hsplit
    refine ⟨_, hsplit, ?_, ?_, ?_⟩
    · simp
    · rw [sumAll_same_currency p.Currency _
        (by
          intro hemp
          have hlen := congrArg List.length hemp
          simp [hntn] at hlen
          omega)
        (by
          intro x hx
          obtain ⟨sa, _, rfl⟩ := List.mem_map.mp hx
          exact NewFromInt_currency _ _ _)]
    · have hr0 : 0 ≤ Int.tmod (-T) n := by
        rw [Int.tmod_eq_emod hMnn (by omega)]
        exact Int.emod_nonneg _ hnz
      have hrlt : Int.tmod (-T) n < n := by
        rw [Int.tmod_eq_emod hMnn (by omega)]
        exact Int.emod_lt_of_pos _ (by omega)
      rw [sumAll_same_currency p.Currency _
        (by
          intro hemp
          have hlen := congrArg List.length hemp
          simp [hntn] at hlen
          omega)
        (by
          intro x hx
          obtain ⟨sa, _, rfl⟩ := List.mem_map.mp hx
          exact NewFromInt_currency _ _ _)]
      rw [List.map_map]
      rw [show ((fun p => Price.amount p) ∘ fun sa =>
          NewFromInt (sa * -1) prec p.Currency)
          = fun sa : ℤ => ((sa * -1 : ℤ) : ℚ) / ((prec : ℤ) : ℚ) from by
        funext sa
        exact NewFromInt_amount _ _ _ (by omega)]
      rw [sum_map_cast_div_neg]
      have hsharesum :
          (((List.range n.toNat).map fun (i : ℕ) =>
            if (i : ℤ) < Int.tmod (-T) n then Int.tdiv (-T) n + 1
            else Int.tdiv (-T) n).sum) = -T := by
        rw [sum_shares n.toNat (Int.tdiv (-T) n) (Int.tmod (-T) n) hr0]
        rw [min_eq_left (by omega : Int.tmod (-T) n ≤ (n.toNat : ℤ))]
        rw [Int.tmod_eq_emod hMnn (by omega), Int.tdiv_eq_ediv hMnn (by omega), hntn]
        have := Int.ediv_add_emod (-T) n
        omega
      rw [hsharesum, hpay]
      simp only [Price.Equal, Price.Currency]
      rw [if_neg (by simp)]
      rw [show (-(((-T : ℤ) : ℚ) / ((prec : ℤ) : ℚ))) = (T : ℚ) / ((prec : ℤ) : ℚ) from by
        push_cast
        ring]
      simp
  · -- nonnegative amount: the split works on the payable value directly
    have hneg : p.IsNegative = false := isNegative_of_nonneg p ha
    have hMnn : (0:ℤ) ≤ T := hTp ha
    have hM : ((if p.IsNegative then p.GetPayable.Inverse.Amount else p.GetPayable.Amount)
        * p.precisionF (p.payableRoundingPrecision).2) = ((T : ℤ) : ℚ) := by
      rw [hneg, hpol, hpay]
      simp only [if_false, Bool.false_eq_true, Price.Amount, Price.precisionF]
      field_simp
    rw [hM, goInt64_intCast T (by omega) (by omega)] at hsplit
    simp only [hneg, hpol, if_false, Bool.false_eq_true] at hsplit
    refine ⟨_, hsplit, ?_, ?_, ?_⟩
    · simp
    · rw [sumAll_same_currency p.Currency _
        (by
          intro hemp
          have hlen := congrArg List.length hemp
          simp [hntn] at hlen
          omega)
        (by
          intro x hx
          obtain ⟨sa, _, rfl⟩ := List.mem_map.mp hx
          exact NewFromInt_currency _ _ _)]
    · have hr0 : 0 ≤ Int.tmod T n := by
        rw [Int.tmod_eq_emod hMnn (by omega)]
        exact Int.emod_nonneg _ hnz
      have hrlt : Int.tmod T n < n := by
        rw [Int.tmod_eq_emod hMnn (by omega)]
        exact Int.emod_lt_of_pos _ (by omega)
      rw [sumAll_same_currency p.Currency _
        (by
          intro hemp
          have hlen := congrArg List.length hemp
          simp [hntn] at hlen
          omega)
        (by
          intro x hx
          obtain ⟨sa, _, rfl⟩ := List.mem_map.mp hx
          exact NewFromInt_currency _ _ _)]
      rw [List.map_map]
      rw [show ((fun p => Price.amount p) ∘ fun sa =>
          NewFromInt sa prec p.Currency)
          = fun sa : ℤ => ((sa : ℤ) : ℚ) / ((prec : ℤ) : ℚ) from by
        funext sa
        exact NewFromInt_amount _ _ _ (by omega)]
      rw [sum_map_cast_div]
      have hsharesum :
          (((List.range n.toNat).map fun (i : ℕ) =>
            if (i : ℤ) < Int.tmod T n then Int.tdiv T n + 1
            else Int.tdiv T n).sum) = T := by
        rw [sum_shares n.toNat (Int.tdiv T n) (Int.tmod T n) hr0]
        rw [min_eq_left (by omega : Int.tmod T n ≤ (n.toNat : ℤ))]
        rw [Int.tmod_eq_emod hMnn (by omega), Int.tdiv_eq_ediv hMnn (by omega), hntn]
        have := Int.ediv_add_emod T n
        omega
      rw [hsharesum, hpay]
      simp only [Price.Equal, Price.Currency]
      rw [if_neg (by simp)]
      simp

/-- C1 amended: for every Amount whose payable-scaled magnitude lies
inside the int64 range and every count n >= 1, SplitInPayables returns
exactly n parts whose SumAll is exactly Equal to getPayable, for positive
and negative amounts and non-dividing counts alike. -/
theorem C1_split_sum_amended (p : Price) (n : ℤ) (h1 : 1 ≤ n)
    (h2 : |p.amount * (((p.payableRoundingPrecision).2 : ℤ) : ℚ)| < (2:ℚ)^63 - 1) :
    ∃ parts : List Price,
      p.SplitInPayables n = Except.ok parts
      ∧ parts.length = n.toNat
      ∧ (SumAll parts).2 = none
      ∧ ((SumAll parts).1.Equal p.GetPayable) = true := by
  rcases payableRoundingPrecision_cases p with hc | hc
  · rw [hc] at h2
    exact split_sum_general p n RoundingModeFloor 1 hc (by norm_num) h1 h2
  · rw [hc] at h2
    exact split_sum_general p n RoundingModeHalfUp 100 hc (by norm_num) h1 h2

/-- C1 witness: 12.456 EUR split in 6 parts sums back to the payable
12.46 exactly. -/
theorem C1_split_sum_amended_witness :
    (1:ℤ) ≤ 6
    ∧ |(NewFromFloat (12456/1000) "EUR").amount
        * ((((NewFromFloat (12456/1000) "EUR").payableRoundingPrecision).2 : ℤ) : ℚ)|
        < (2:ℚ)^63 - 1
    ∧ ∃ parts : List Price,
        (NewFromFloat (12456/1000) "EUR").SplitInPayables 6 = Except.ok parts
        ∧ parts.length = (6:ℤ).toNat
        ∧ (SumAll parts).2 = none
        ∧ ((SumAll parts).1.Equal (NewFromFloat (12456/1000) "EUR").GetPayable) = true := by
  have hpol : (NewFromFloat (12456/1000) "EUR").payableRoundingPrecision
      = (RoundingModeHalfUp, 100) := by
    simp [Price.payableRoundingPrecision, NewFromFloat, goToLower, charLower]
  have hb : |(NewFromFloat (12456/1000) "EUR").amount
      * ((((NewFromFloat (12456/1000) "EUR").payableRoundingPrecision).2 : ℤ) : ℚ)|
      < (2:ℚ)^63 - 1 := by
    rw [hpol]
    show |(12456/1000 : ℚ) * ((100:ℤ) : ℚ)| < (2:ℚ)^63 - 1
    rw [abs_of_pos (by norm_num)]
    norm_num
  exact ⟨by norm_num, hb, C1_split_sum_amended (NewFromFloat (12456/1000) "EUR") 6 (by norm_num) hb⟩

/-- C1 counterexample: the Amount 2^63 + 1/3 EUR defeats the claim even
at count 1: its payable value is the unrounded 2^63 + 1/3 (MaxInt64
guard), while the split converts through a saturated int64 and yields a
single part -2^63/100, whose sum is not Equal to the payable. -/
theorem C1_split_sum_counterexample :
    (⟨(2:ℚ)^63 + 1/3, "EUR"⟩ : Price).SplitInPayables 1
        = Except.ok [⟨((-(2^63) : ℤ) : ℚ) / ((100:ℤ) : ℚ), "EUR"⟩]
      ∧ ((SumAll [⟨((-(2^63) : ℤ) : ℚ) / ((100:ℤ) : ℚ), "EUR"⟩]).1.Equal
          (⟨(2:ℚ)^63 + 1/3, "EUR"⟩ : Price).GetPayable) = false := by
  have hpol : (⟨(2:ℚ)^63 + 1/3, "EUR"⟩ : Price).payableRoundingPrecision
      = (RoundingModeHalfUp, 100) := by
    simp [Price.payableRoundingPrecision, goToLower, charLower]
  have hpay : (⟨(2:ℚ)^63 + 1/3, "EUR"⟩ : Price).GetPayable = ⟨(2:ℚ)^63 + 1/3, "EUR"⟩ := by
    rw [Price.GetPayable, hpol, Price.GetPayableByRoundingMode, if_pos]
    show ((2:ℚ)^63 + 1/3) * ((100:ℤ) : ℚ) ≥ (2:ℚ)^63
    norm_num
  have hneg : (⟨(2:ℚ)^63 + 1/3, "EUR"⟩ : Price).IsNegative = false :=
    isNegative_of_nonneg _ (by positivity)
  constructor
  · rw [splitInPayables_closed _ 1 (by norm_num)]
    simp only [hneg, hpol, hpay, Price.Amount, Price.precisionF, Bool.false_eq_true, if_false]
    rw [show goInt64 (((2:ℚ)^63 + 1/3) * ((100:ℤ) : ℚ)) = -(2^63) from by
      rw [goInt64, if_pos]
      left
      norm_num]
    rw [show Int.tmod (-(2^63)) 1 = 0 from by decide,
      show Int.tdiv (-(2^63)) 1 = -(2^63) from by decide]
    rw [show ((1:ℤ).toNat) = 1 from rfl, show List.range 1 = [0] from rfl]
    simp only [List.map_cons, List.map_nil, Nat.cast_zero, lt_self_iff_false, if_false]
    rw [show NewFromInt (-(2^63)) 100 (Price.Currency ⟨(2:ℚ)^63 + 1/3, "EUR"⟩)
        = ⟨((-(2^63) : ℤ) : ℚ) / ((100:ℤ) : ℚ), "EUR"⟩ from by
      rw [NewFromInt]
      norm_num [Price.Currency]]
  · rw [show SumAll [(⟨((-(2^63) : ℤ) : ℚ) / ((100:ℤ) : ℚ), "EUR"⟩ : Price)]
        = ((⟨((-(2^63) : ℤ) : ℚ) / ((100:ℤ) : ℚ), "EUR"⟩ : Price), none) from rfl]
    rw [hpay]
    simp only [Price.Equal]
    rw [if_neg (by simp)]
    norm_num
